import Mathlib

/-!
Verification of the handel multi-signature aggregation core against its
natural-language specification.  The Go sources (`handel.go`, `tree.go`)
are shallowly embedded as executable Lean definitions; machine integers
are modelled as `Nat`/`Int` (all quantities involved stay non-negative
and far from overflow), Go's `error` returns become `Option`/`Except`,
and Go run-time panics (such as closing an already closed channel) are
made explicit through an `Except GoPanic` result.

A handful of collaborators of the core are not part of the sources under
verification (the registry, the `log2` helper, the signature store, the
bit-set and the wire unmarshalling); they are modelled from the
specification and marked as such in their doc comments.
-/

namespace Handel

/-- An identity is represented by its dense integer id (spec §3: the
registry is an ordered sequence indexed by id). -/
abbrev Identity := Nat

/-- Modelled from the spec: the `Registry` implementation
(`arrayRegistry` / `FakeRegistry`) is not part of the sources.  Spec §3:
a read-only view exposing `Size()` and the contiguous range query
`Identities(from, to)` returning the identities with ids in `[from, to)`
and failing if either endpoint is out of `[0, N]`. -/
structure Registry where
  size : Nat
deriving DecidableEq

/-- Modelled from the spec: `Identities(from, to)` returns the ids in
`[from, to)`, failure if an endpoint exceeds the registry size. -/
def Registry.Identities (r : Registry) (lo hi : Nat) : Option (List Identity) :=
  if lo ≤ r.size ∧ hi ≤ r.size then some (List.range' lo (hi - lo)) else none

/-- Modelled from the spec: the `log2` helper is not part of the sources.
Spec §3/§4.6 use `⌈log₂ N⌉` (levels range over `1..⌈log₂ N⌉`); the
recursion `⌈log₂ n⌉ = ⌈log₂ ⌈n/2⌉⌉ + 1` for `n ≥ 2` is implemented with
structural fuel so that it evaluates by kernel reduction. -/
def ceilLog2Aux : Nat → Nat → Nat
  | 0, _ => 0
  | fuel + 1, n => if n ≤ 1 then 0 else ceilLog2Aux fuel ((n + 1) / 2) + 1

/-- Modelled from the spec: `log2 n = ⌈log₂ n⌉`. -/
def log2 (n : Nat) : Nat := ceilLog2Aux n n

/-- `isSet` returns true if the bit is set to 1 at the given index in the
binary form of `nb` (translated from `tree.go`). -/
def isSet (nb index : Nat) : Bool := ((nb >>> index) &&& 1) == 1

/-- The candidate tree of `tree.go`: the logical binomial tree a handel
node uses, anchored at this node's id. -/
structure candidateTree where
  id : Nat
  bitsize : Nat
  size : Nat
  reg : Registry
deriving DecidableEq

/-- `newCandidateTree` returns a candidateTree using the given id as its
anchor point in the id list, and the given registry (from `tree.go`). -/
def newCandidateTree (id : Nat) (reg : Registry) : candidateTree :=
  { size := reg.size
    reg := reg
    id := id
    bitsize := log2 reg.size }

/-- The binary-search loop of `FullRange` in `tree.go`:
`for idx := c.bitsize - 1; idx >= maxIdx && min <= max; idx--`.
The fuel argument counts the remaining iterations, so the current bit
index is `maxIdx + fuel - 1`; the three early `break`s of the Go loop
all return the current bounds.  (Go's `max-1 == 0` test is written on
`Nat`; it can only differ from the Go integer test when `max = 0`, in
which case `min = 0` as well and the preceding `max == min` break has
already fired, so the function is observationally identical.) -/
def fullRangeLoop (c : candidateTree) (maxIdx : Nat) : Nat → Nat → Nat → Nat × Nat
  | 0, mn, mx => (mn, mx)
  | fuel + 1, mn, mx =>
    if mn ≤ mx then
      let idx := maxIdx + fuel
      let middle := (mx + mn) / 2
      let p :=
        if isSet c.id idx then
          -- we inverse the order at the given CPL to get the candidate set
          if idx = maxIdx then (mn, middle) else (middle, mx)
        else
          if idx = maxIdx then (middle, mx) else (mn, middle)
      if p.2 = p.1 then p
      else if p.2 - 1 = 0 ∨ p.1 = c.size then p
      else fullRangeLoop c maxIdx fuel p.1 p.2
    else (mn, mx)

/-- `FullRange` returns the set of identities comprised at the given
level from the point of view of the id of the candidateTree (translated
from `tree.go`); `none` models the Go error returns. -/
def FullRange (c : candidateTree) (level : Nat) : Option (List Identity) :=
  if level < 1 ∨ level > c.bitsize then none
  else
    let p := fullRangeLoop c (level - 1) (c.bitsize - (level - 1)) 0 c.size
    c.reg.Identities p.1 p.2

/-- Modelled from the spec: the bit-set and `MultiSignature`
implementations are not in the sources.  Spec §3: a multi-signature is
an aggregate signature together with the contributor bit-set; only the
bit-set (and its `Cardinality`) is observable by the aggregation core,
so the aggregate signature itself is not represented. -/
structure MultiSignature where
  bits : List Bool
deriving DecidableEq

/-- Spec §3: `Cardinality()` counts the contributors of the bit-set. -/
def MultiSignature.Cardinality (ms : MultiSignature) : Nat :=
  ms.bits.count true

/-- The per-level send/receive state of `handel.go`. -/
structure Level where
  id : Nat
  nodes : List Identity
  sendStarted : Bool
  rcvCompleted : Bool
  sendPos : Nat
  sendPeersCt : Nat
  sendSigSize : Nat
deriving DecidableEq

instance : Inhabited Level :=
  ⟨⟨0, [], false, false, 0, 0, 0⟩⟩

/-- `NewLevel` from `handel.go` (the `id <= 0` panic guard is not
reachable from `createLevels`, which always passes `i + 1`). -/
def NewLevel (id : Nat) (nodes : List Identity) : Level :=
  { id := id
    nodes := nodes
    sendStarted := id == 1
    rcvCompleted := id == 1
    sendPos := 0
    sendPeersCt := 0
    sendSigSize := 0 }

/-- The body of the `for` loop in `PickNextAt` of `handel.go`:
`res[i] = c.nodes[c.sendPos]; c.sendPos++; if c.sendPos >= len(c.nodes)
{ c.sendPos = 0 }`, iterated `size` times. -/
def pickNextLoop (nodes : List Identity) : Nat → Nat → List Identity × Nat
  | pos, 0 => ([], pos)
  | pos, size + 1 =>
    let x := nodes.getD pos 0
    let pos1 := pos + 1
    let pos2 := if pos1 ≥ nodes.length then 0 else pos1
    let r := pickNextLoop nodes pos2 size
    (x :: r.1, r.2)

/-- `PickNextAt` on a level, from `handel.go`; the Go method mutates its
receiver, so the updated level is returned alongside the Go results. -/
def Level.PickNextAt (c : Level) (count : Nat) : (List Identity × Bool) × Level :=
  let size := min count c.nodes.length
  let r := pickNextLoop c.nodes c.sendPos size
  ((r.1, true), { c with sendPos := r.2, sendPeersCt := c.sendPeersCt + size })

/-- `updateSigToSend` from `handel.go`; the Go method mutates its
receiver, so the updated level is returned alongside the Go result. -/
def Level.updateSigToSend (l : Level) (sig : MultiSignature) : Level × Bool :=
  if l.sendSigSize ≥ sig.Cardinality then (l, false)
  else
    let l1 := { l with sendSigSize := sig.Cardinality, sendPeersCt := 0 }
    if l1.sendSigSize = l1.nodes.length then
      ({ l1 with sendStarted := true }, true)
    else
      (l1, false)

/-- A verified signature triple, `sigPair` of `handel.go`. -/
structure sigPair where
  origin : Int
  level : Nat
  ms : MultiSignature
deriving DecidableEq

/-- A network packet (spec §6): origin id, level and opaque
multi-signature bytes. -/
structure Packet where
  Origin : Int
  Level : Nat
  MultiSig : List Nat
deriving DecidableEq

/-- The config fields the aggregation core reads, in milliseconds
(spec §6). -/
structure Config where
  LevelTimeoutMs : Nat
  CandidateCount : Nat
deriving DecidableEq

/-- The message/statistics counters of `handel.go`. -/
structure HStats where
  msgSentCt : Nat
  msgRcvCt : Nat
deriving DecidableEq

/-- A Go run-time panic made explicit. -/
inductive GoPanic where
  | closeOfClosedChannel
  | sendOnClosedChannel
deriving DecidableEq

/-- The output channel `out chan MultiSignature`: a buffer plus the
closed flag.  Closing an already closed Go channel, or sending on a
closed one, panics. -/
structure OutChan where
  closed : Bool
  buffer : List MultiSignature
deriving DecidableEq

/-- `close(ch)` on a Go channel: panics when already closed. -/
def closeChan (ch : OutChan) : Except GoPanic OutChan :=
  if ch.closed then Except.error GoPanic.closeOfClosedChannel
  else Except.ok { ch with closed := true }

/-- `ch <- m` on a Go channel: panics when the channel is closed
(buffered sends on the open 10000-slot channel are modelled as appends). -/
def sendChan (ch : OutChan) (m : MultiSignature) : Except GoPanic OutChan :=
  if ch.closed then Except.error GoPanic.sendOnClosedChannel
  else Except.ok { ch with buffer := ch.buffer ++ [m] }

/-- The aggregator state of `handel.go`.  Collaborators whose
implementation is not in the sources are modelled from the spec:
`combined`/`fullSignature` stand for the read-only store queries
`store.Combined` / `store.FullSignature` (spec §4.4), `unmarshal` for
`MultiSignature.Unmarshal` with the configured constructor and bit-set
factory (spec §6), `incoming` for the pipeline's `Incoming` stream
buffer (spec §4.5), `tickerStopped`/`procStopped` for the ticker and
pipeline lifecycle flags, and `sent` logs `net.Send` calls. -/
structure Handel where
  stats : HStats
  c : Config
  regSize : Nat
  id : Nat
  combined : Nat → MultiSignature
  fullSignature : MultiSignature
  unmarshal : List Nat → Option MultiSignature
  incoming : List sigPair
  best : Option MultiSignature
  out : OutChan
  done : Bool
  threshold : Nat
  tickerStopped : Bool
  procStopped : Bool
  levels : List Level
  startTime : Int

/-- `sendTo` from `handel.go`: bump `msgSentCt` and hand the packet to
the network (`MarshalBinary` of the opaque signature is modelled as
always succeeding; on failure Go only skips the `net.Send`, which this
model records in `sent`). -/
def Handel.sendTo (h : Handel) (lvl : Nat) (ms : MultiSignature) (ids : List Identity) :
    Handel × List (Nat × MultiSignature × List Identity) :=
  ({ h with stats := { h.stats with msgSentCt := h.stats.msgSentCt + 1 } }, [(lvl, ms, ids)])

/-- `sendUpdate` from `handel.go`.  The Go parameter `l Level` is passed
by value: `l.PickNextAt` mutates only that local copy, so the
aggregator's `levels` array is untouched. -/
def Handel.sendUpdate (h : Handel) (l : Level) (count : Nat) : Handel :=
  if !l.sendStarted ∨ l.sendPeersCt ≥ l.nodes.length then h
  else
    let sp := h.combined (l.id - 1)
    let r := l.PickNextAt count
    (h.sendTo l.id sp r.1.1).1

/-- `periodicUpdate` from `handel.go`.  `for _, lvl := range h.levels`
iterates over copies of the level entries; the timeout update
`lvl.sendStarted = true` is applied to the loop-local copy, which is
then passed (by value) to `sendUpdate`. -/
def Handel.periodicUpdate (h : Handel) (t : Int) : Handel :=
  let msSinceStart := t - h.startTime
  h.levels.foldl
    (fun h lvl =>
      let lvl :=
        if !lvl.sendStarted ∧ msSinceStart ≥ ((lvl.id - 1) * h.c.LevelTimeoutMs : Nat) then
          { lvl with sendStarted := true }
        else lvl
      h.sendUpdate lvl 1)
    h

/-- `checkCompletedLevel` from `handel.go`.  `lvl := h.levels[s.level-1]`
copies the entry, so `lvl.rcvCompleted = true` only mutates the local
copy; likewise the loop copies `h.levels[i-1]`, calls `updateSigToSend`
on that copy and passes it (by value) to `sendUpdate`. -/
def Handel.checkCompletedLevel (h : Handel) (s : sigPair) : Handel :=
  let lvl := h.levels.getD (s.level - 1) default
  let _rcv := if s.ms.Cardinality = lvl.nodes.length then
    { lvl with rcvCompleted := true } else lvl
  (List.range' (s.level + 1) (h.levels.length - s.level)).foldl
    (fun h i =>
      let lvl := h.levels.getD (i - 1) default
      let ms := h.combined (lvl.id - 1)
      let r := lvl.updateSigToSend ms
      if r.2 then h.sendUpdate r.1 h.c.CandidateCount else h)
    h

/-- `checkFinalSignature` from `handel.go`: emit the store's full
signature on the output channel when it reaches the threshold and beats
the previous best. -/
def Handel.checkFinalSignature (h : Handel) (_s : sigPair) : Except GoPanic Handel :=
  let sig := h.fullSignature
  if sig.Cardinality < h.threshold then Except.ok h
  else
    let newBest := fun (h : Handel) (ms : MultiSignature) =>
      if h.done then Except.ok h
      else
        let h1 := { h with best := some ms }
        match sendChan h1.out ms with
        | Except.error e => Except.error e
        | Except.ok o => Except.ok { h1 with out := o }
    match h.best with
    | none => newBest h sig
    | some local0 =>
      if sig.Cardinality > local0.Cardinality then newBest h sig else Except.ok h

/-- `parsePacket` from `handel.go`: bump `msgRcvCt`, then validate
origin and level and unmarshal the multi-signature; `none` models the
Go error returns. -/
def Handel.parsePacket (h : Handel) (p : Packet) : Handel × Option MultiSignature :=
  let h1 := { h with stats := { h.stats with msgRcvCt := h.stats.msgRcvCt + 1 } }
  if p.Origin ≥ (h1.regSize : Int) then (h1, none)
  else if p.Level < 1 ∨ p.Level > log2 h1.regSize then (h1, none)
  else (h1, h1.unmarshal p.MultiSig)

/-- `NewPacket` from `handel.go`: no-op when done, otherwise parse and
(on success) enqueue to the pipeline's `Incoming` stream.  The test
`!h.levels[p.Level-1].rcvCompleted || true` of the source is always
true, so every successfully parsed packet is enqueued. -/
def Handel.NewPacket (h : Handel) (p : Packet) : Handel :=
  if h.done then h
  else
    let r := h.parsePacket p
    match r.2 with
    | none => r.1
    | some ms =>
      if !(r.1.levels.getD (p.Level - 1) default).rcvCompleted ∨ True then
        { r.1 with incoming := r.1.incoming ++ [⟨p.Origin, p.Level, ms⟩] }
      else r.1

/-- `Stop` from `handel.go`: stop the ticker, stop the pipeline, set
`done`, then `close(h.out)` — unconditionally, so a second call reaches
`close` on an already closed channel.  (`time.Ticker.Stop` is idempotent
in Go and the pipeline stop is modelled as an idempotent flag, so the
only panic source is the channel close of the source itself.) -/
def Handel.Stop (h : Handel) : Except GoPanic Handel :=
  let h1 := { h with tickerStopped := true, procStopped := true, done := true }
  match closeChan h1.out with
  | Except.error e => Except.error e
  | Except.ok o => Except.ok { h1 with out := o }

/-- An arbitrary call to one of the three level-reading operations of
the aggregator, used to state frame properties over call sequences. -/
inductive AggOp where
  | periodic (t : Int)
  | send (l : Level) (count : Nat)
  | check (s : sigPair)

/-- Apply one operation to the aggregator state. -/
def AggOp.apply (h : Handel) : AggOp → Handel
  | .periodic t => h.periodicUpdate t
  | .send l count => h.sendUpdate l count
  | .check s => h.checkCompletedLevel s

end Handel

namespace Handel

lemma ceilLog2Aux_eq_clog : ∀ fuel n, n ≤ fuel → ceilLog2Aux fuel n = Nat.clog 2 n := by
  intro fuel
  induction fuel with
  | zero =>
    intro n hn
    interval_cases n
    simp [ceilLog2Aux]
  | succ fuel ih =>
    intro n hn
    by_cases h1 : n ≤ 1
    · simp [ceilLog2Aux, h1, Nat.clog_of_right_le_one h1]
    · have h2 : 2 ≤ n := by omega
      have hrec : ceilLog2Aux (fuel + 1) n = ceilLog2Aux fuel ((n + 1) / 2) + 1 := by
        simp [ceilLog2Aux, h1]
      rw [hrec, ih _ (by omega), Nat.clog_of_two_le (by norm_num) h2]
      have e : n + 2 - 1 = n + 1 := by omega
      rw [e]

lemma log2_pow (B : Nat) : log2 (2 ^ B) = B := by
  rw [log2, ceilLog2Aux_eq_clog _ _ le_rfl, Nat.clog_pow 2 B (by norm_num)]

lemma isSet_iff (a m : Nat) : isSet a m = true ↔ a / 2 ^ m % 2 = 1 := by
  rw [isSet, Nat.shiftRight_eq_div_pow, Nat.and_one_is_mod, beq_iff_eq]

/-- Dividing by one more power of two halves the quotient; the dropped
bit is the one `isSet` reads. -/
lemma div_pow_succ (a m : Nat) :
    a / 2 ^ m = 2 * (a / 2 ^ (m + 1)) + (if isSet a m then 1 else 0) := by
  have hdd : a / 2 ^ (m + 1) = a / 2 ^ m / 2 := by
    rw [pow_succ, Nat.div_div_eq_div_mul]
  have hsplit : 2 * (a / 2 ^ m / 2) + a / 2 ^ m % 2 = a / 2 ^ m := Nat.div_add_mod _ _
  by_cases hb : isSet a m
  · have h1 : a / 2 ^ m % 2 = 1 := (isSet_iff a m).mp hb
    rw [if_pos hb]
    omega
  · have h1 : a / 2 ^ m % 2 ≠ 1 := fun h => hb ((isSet_iff a m).mpr h)
    have h0 : a / 2 ^ m % 2 = 0 := by omega
    rw [if_neg hb]
    omega

/-- Quotients at higher powers of two agree once they agree at a lower
power. -/
lemma div_pow_congr {a b : Nat} {i : Nat} (i' : Nat) (h : i ≤ i')
    (hd : b / 2 ^ i = a / 2 ^ i) : b / 2 ^ i' = a / 2 ^ i' := by
  have hi : i' = i + (i' - i) := by omega
  rw [hi, pow_add, ← Nat.div_div_eq_div_mul, ← Nat.div_div_eq_div_mul, hd]

/-- One unfolding of the `FullRange` loop when another iteration runs. -/
lemma fullRangeLoop_succ_eq (c : candidateTree) (maxIdx fuel mn mx : Nat) (hle : mn ≤ mx) :
    fullRangeLoop c maxIdx (fuel + 1) mn mx =
      (let middle := (mx + mn) / 2
       let p :=
        if isSet c.id (maxIdx + fuel) then
          if maxIdx + fuel = maxIdx then (mn, middle) else (middle, mx)
        else
          if maxIdx + fuel = maxIdx then (middle, mx) else (mn, middle)
       if p.2 = p.1 then p
       else if p.2 - 1 = 0 ∨ p.1 = c.size then p
       else fullRangeLoop c maxIdx fuel p.1 p.2) := by
  rw [fullRangeLoop, if_pos hle]

/-- The invariant of the `FullRange` binary-search loop on a power-of-two
registry: starting from the aligned block of width `2 ^ (m + n + 1)`
around the anchor, the loop returns the sibling half of the anchor's
block at width `2 ^ (m + 1)`. -/
lemma fullRangeLoop_pow (c : candidateTree) (m : Nat) (hid : c.id < c.size) :
    ∀ n, fullRangeLoop c m (n + 1)
        ((c.id / 2 ^ (m + n + 1)) * 2 ^ (m + n + 1))
        ((c.id / 2 ^ (m + n + 1)) * 2 ^ (m + n + 1) + 2 ^ (m + n + 1)) =
      ((c.id / 2 ^ (m + 1)) * 2 ^ (m + 1) + (if isSet c.id m then 0 else 2 ^ m),
       (c.id / 2 ^ (m + 1)) * 2 ^ (m + 1) + (if isSet c.id m then 0 else 2 ^ m) + 2 ^ m) := by
  intro n
  induction n with
  | zero =>
    have h2 : (2 : Nat) ^ (m + 1) = 2 ^ m + 2 ^ m := by rw [pow_succ]; omega
    rw [show m + 0 + 1 = m + 1 from by omega,
      fullRangeLoop_succ_eq c m 0 _ _ (Nat.le_add_right _ _)]
    simp only [Nat.add_zero, if_pos rfl]
    by_cases hb : isSet c.id m <;>
      simp only [hb, Bool.false_eq_true, if_true, if_false] <;>
      split_ifs <;>
      simp only [fullRangeLoop, Prod.mk.injEq] <;>
      exact ⟨by omega, by omega⟩
  | succ n ih =>
    set j := m + n + 1 with hj
    have e1 : m + (n + 1) + 1 = j + 1 := by omega
    have e2 : m + (n + 1) = j := by omega
    have hne : j ≠ m := by omega
    have h2 : (2 : Nat) ^ (j + 1) = 2 ^ j + 2 ^ j := by rw [pow_succ]; omega
    have hbit := div_pow_succ c.id j
    have hle : (c.id / 2 ^ j) * 2 ^ j ≤ c.id := Nat.div_mul_le_self _ _
    have hpowj : 2 ≤ (2 : Nat) ^ j := by
      have h := Nat.pow_le_pow_right (show 1 ≤ 2 by norm_num) (show 1 ≤ j by omega)
      simpa using h
    rw [e1, fullRangeLoop_succ_eq c m (n + 1) _ _ (Nat.le_add_right _ _)]
    simp only [e2, if_neg hne]
    have hmid : ((c.id / 2 ^ (j + 1)) * 2 ^ (j + 1) + 2 ^ (j + 1) +
        (c.id / 2 ^ (j + 1)) * 2 ^ (j + 1)) / 2 =
        (c.id / 2 ^ (j + 1)) * 2 ^ (j + 1) + 2 ^ j := by omega
    rw [hmid]
    by_cases hb : isSet c.id j
    · -- bit set: descend into the upper half
      rw [if_pos hb] at hbit ⊢
      have hmn : (c.id / 2 ^ (j + 1)) * 2 ^ (j + 1) + 2 ^ j = (c.id / 2 ^ j) * 2 ^ j := by
        calc (c.id / 2 ^ (j + 1)) * 2 ^ (j + 1) + 2 ^ j
            = (2 * (c.id / 2 ^ (j + 1)) + 1) * 2 ^ j := by rw [pow_succ]; ring
          _ = (c.id / 2 ^ j) * 2 ^ j := by rw [← hbit]
      rw [if_neg (by simp only [Prod.fst, Prod.snd]; omega),
        if_neg (by simp only [Prod.fst, Prod.snd]; push_neg; exact ⟨by omega, by omega⟩)]
      simp only [hmn]
      have h3 : (c.id / 2 ^ (j + 1)) * 2 ^ (j + 1) + 2 ^ (j + 1) =
          (c.id / 2 ^ j) * 2 ^ j + 2 ^ j := by omega
      rw [h3]
      exact ih
    · -- bit clear: descend into the lower half
      rw [if_neg hb] at hbit ⊢
      have hmn : (c.id / 2 ^ (j + 1)) * 2 ^ (j + 1) = (c.id / 2 ^ j) * 2 ^ j := by
        calc (c.id / 2 ^ (j + 1)) * 2 ^ (j + 1)
            = (2 * (c.id / 2 ^ (j + 1)) + 0) * 2 ^ j := by rw [pow_succ]; ring
          _ = (c.id / 2 ^ j) * 2 ^ j := by rw [← hbit]
      rw [if_neg (by simp only [Prod.fst, Prod.snd]; omega),
        if_neg (by simp only [Prod.fst, Prod.snd]; push_neg; exact ⟨by omega, by omega⟩)]
      simp only [hmn]
      exact ih

/-- The aligned sibling block of the anchor `a` at level `k`: the lower
end of the interval `FullRange` returns on a power-of-two registry. -/
def siblingLo (a k : Nat) : Nat :=
  (a / 2 ^ k) * 2 ^ k + (if isSet a (k - 1) then 0 else 2 ^ (k - 1))

/-- On a power-of-two registry, `FullRange` returns exactly the sibling
interval of the anchor at level `k`. -/
lemma fullRange_pow (B a k : Nat) (ha : a < 2 ^ B) (hk1 : 1 ≤ k) (hkB : k ≤ B) :
    FullRange (newCandidateTree a ⟨2 ^ B⟩) k =
      some (List.range' (siblingLo a k) (2 ^ (k - 1))) := by
  obtain ⟨m, rfl⟩ : ∃ m, k = m + 1 := ⟨k - 1, by omega⟩
  obtain ⟨n, hBn⟩ : ∃ n, B = m + n + 1 := ⟨B - m - 1, by omega⟩
  subst hBn
  simp only [FullRange, newCandidateTree, log2_pow, siblingLo, Nat.add_sub_cancel]
  rw [if_neg (by push_neg; constructor <;> omega)]
  have harg : m + n + 1 - m = n + 1 := by omega
  rw [harg]
  have hid : a < 2 ^ (m + n + 1) := ha
  have hloop := fullRangeLoop_pow
    { id := a, bitsize := m + n + 1, size := 2 ^ (m + n + 1), reg := ⟨2 ^ (m + n + 1)⟩ }
    m hid n
  simp only [] at hloop
  have hdiv0 : a / 2 ^ (m + n + 1) = 0 := Nat.div_eq_of_lt ha
  rw [hdiv0, Nat.zero_mul, Nat.zero_add] at hloop
  rw [hloop]
  have hpos : 0 < (2 : Nat) ^ (m + 1) := Nat.pos_pow_of_pos _ (by norm_num)
  have hsplitpow : (2 : Nat) ^ (m + n + 1) = 2 ^ n * 2 ^ (m + 1) := by
    rw [← pow_add]
    congr 1
    omega
  have hdivlt : a / 2 ^ (m + 1) < 2 ^ n := by
    rw [Nat.div_lt_iff_lt_mul hpos, ← hsplitpow]
    exact ha
  have h2m : (2 : Nat) ^ (m + 1) = 2 ^ m + 2 ^ m := by rw [pow_succ]; omega
  have hmul : (a / 2 ^ (m + 1) + 1) * 2 ^ (m + 1) ≤ 2 ^ n * 2 ^ (m + 1) :=
    Nat.mul_le_mul_right _ (by omega)
  have hbound : (a / 2 ^ (m + 1)) * 2 ^ (m + 1) +
      (if isSet a m then 0 else 2 ^ m) + 2 ^ m ≤ 2 ^ (m + n + 1) := by
    have hsum : (a / 2 ^ (m + 1)) * 2 ^ (m + 1) + 2 ^ (m + 1) =
        (a / 2 ^ (m + 1) + 1) * 2 ^ (m + 1) := by ring
    by_cases hb : isSet a m <;> simp only [hb, if_true, if_false, Bool.false_eq_true] <;> omega
  have hlo : (a / 2 ^ (m + 1)) * 2 ^ (m + 1) + (if isSet a m then 0 else 2 ^ m) ≤
      2 ^ (m + n + 1) := by omega
  rw [Registry.Identities, if_pos ⟨hlo, hbound⟩, Nat.add_sub_cancel_left]

lemma mem_range'_iff (s n b : Nat) : b ∈ List.range' s n ↔ s ≤ b ∧ b < s + n := by
  rw [List.mem_range']
  constructor
  · rintro ⟨i, hi, rfl⟩
    omega
  · intro h
    exact ⟨b - s, by omega, by omega⟩

/-- Membership in the sibling interval of the anchor at level `m + 1`:
the top bits above `m + 1` agree with the anchor and bit `m` differs. -/
lemma mem_sibling_iff (a b m : Nat) :
    (siblingLo a (m + 1) ≤ b ∧ b < siblingLo a (m + 1) + 2 ^ m) ↔
      (b / 2 ^ (m + 1) = a / 2 ^ (m + 1) ∧ b / 2 ^ m ≠ a / 2 ^ m) := by
  have hpos : 0 < (2 : Nat) ^ m := Nat.pos_pow_of_pos _ (by norm_num)
  have hbita := div_pow_succ a m
  have hbitb := div_pow_succ b m
  have hdm := Nat.div_add_mod b (2 ^ m)
  have hmodb : b % 2 ^ m < 2 ^ m := Nat.mod_lt _ hpos
  have hchar : ∀ cc : Nat, cc * 2 ^ m ≤ b → b < (cc + 1) * 2 ^ m → b / 2 ^ m = cc := by
    intro cc h1 h2
    have ha1 : cc ≤ b / 2 ^ m := (Nat.le_div_iff_mul_le hpos).mpr h1
    have ha2 : b / 2 ^ m < cc + 1 := (Nat.div_lt_iff_lt_mul hpos).mpr h2
    omega
  have e1 : (a / 2 ^ (m + 1)) * 2 ^ (m + 1) = 2 * ((a / 2 ^ (m + 1)) * 2 ^ m) := by
    rw [pow_succ]
    ring
  have e2 : 2 * (a / 2 ^ (m + 1)) * 2 ^ m = 2 * ((a / 2 ^ (m + 1)) * 2 ^ m) := by ring
  have e3 : (2 * (a / 2 ^ (m + 1)) + 1) * 2 ^ m = 2 * ((a / 2 ^ (m + 1)) * 2 ^ m) + 2 ^ m := by
    ring
  have e3b : (2 * (a / 2 ^ (m + 1)) + 1 + 1) * 2 ^ m =
      2 * ((a / 2 ^ (m + 1)) * 2 ^ m) + 2 ^ m + 2 ^ m := by ring
  have e4 : 2 ^ m * (2 * (a / 2 ^ (m + 1))) = 2 * ((a / 2 ^ (m + 1)) * 2 ^ m) := by ring
  have e5 : 2 ^ m * (2 * (a / 2 ^ (m + 1)) + 1) =
      2 * ((a / 2 ^ (m + 1)) * 2 ^ m) + 2 ^ m := by ring
  unfold siblingLo
  simp only [Nat.add_sub_cancel]
  constructor
  · rintro ⟨h1, h2⟩
    by_cases hba : isSet a m
    · rw [if_pos hba] at hbita h1 h2
      have hd : b / 2 ^ m = 2 * (a / 2 ^ (m + 1)) := by
        apply hchar <;> omega
      by_cases hbb : isSet b m
      · rw [if_pos hbb] at hbitb
        exact ⟨by omega, by omega⟩
      · rw [if_neg hbb] at hbitb
        exact ⟨by omega, by omega⟩
    · rw [if_neg hba] at hbita h1 h2
      have hd : b / 2 ^ m = 2 * (a / 2 ^ (m + 1)) + 1 := by
        apply hchar <;> omega
      by_cases hbb : isSet b m
      · rw [if_pos hbb] at hbitb
        exact ⟨by omega, by omega⟩
      · rw [if_neg hbb] at hbitb
        exact ⟨by omega, by omega⟩
  · rintro ⟨h1, h2⟩
    rw [h1] at hbitb
    rw [hbitb] at hdm
    by_cases hba : isSet a m
    · rw [if_pos hba] at hbita ⊢
      by_cases hbb : isSet b m
      · rw [if_pos hbb] at hbitb
        exact ⟨by omega, by omega⟩
      · rw [if_neg hbb] at hbitb hdm
        simp only [Nat.add_zero] at hbitb hdm
        exact ⟨by omega, by omega⟩
    · rw [if_neg hba] at hbita ⊢
      by_cases hbb : isSet b m
      · rw [if_pos hbb] at hbitb hdm
        exact ⟨by omega, by omega⟩
      · rw [if_neg hbb] at hbitb
        exact ⟨by omega, by omega⟩

/-- Membership in the level-`k` candidate list, expressed through the
binary expansions of the anchor and the candidate. -/
lemma fullRange_mem_iff (B a k b : Nat) (ha : a < 2 ^ B) (hk1 : 1 ≤ k) (hkB : k ≤ B) :
    (∃ l, FullRange (newCandidateTree a ⟨2 ^ B⟩) k = some l ∧ b ∈ l) ↔
      (b / 2 ^ k = a / 2 ^ k ∧ b / 2 ^ (k - 1) ≠ a / 2 ^ (k - 1)) := by
  obtain ⟨m, rfl⟩ : ∃ m, k = m + 1 := ⟨k - 1, by omega⟩
  rw [fullRange_pow B a (m + 1) ha hk1 hkB]
  simp only [Nat.add_sub_cancel]
  constructor
  · rintro ⟨l, hl, hb⟩
    have hl2 : l = List.range' (siblingLo a (m + 1)) (2 ^ m) := by
      injection hl.symm
    rw [hl2, mem_range'_iff] at hb
    exact (mem_sibling_iff a b m).mp hb
  · intro h
    refine ⟨List.range' (siblingLo a (m + 1)) (2 ^ m), rfl, ?_⟩
    rw [mem_range'_iff]
    exact (mem_sibling_iff a b m).mpr h

/-- C5: on a registry of size `N = 2 ^ B` (`B ≥ 1`) with anchor
`a < N`, the level sets `FullRange k` for `k = 1..B` exist, have
`2 ^ (k - 1)` elements each, are pairwise disjoint, and cover exactly
`{0..N-1} \ {a}`. -/
theorem fullRange_partition (B a : Nat) (hB : 1 ≤ B) (ha : a < 2 ^ B) :
    (∀ k, 1 ≤ k → k ≤ B →
      ∃ l, FullRange (newCandidateTree a ⟨2 ^ B⟩) k = some l ∧ l.length = 2 ^ (k - 1)) ∧
    (∀ j k, 1 ≤ j → 1 ≤ k → j ≤ B → k ≤ B → j ≠ k →
      ∀ lj lk, FullRange (newCandidateTree a ⟨2 ^ B⟩) j = some lj →
        FullRange (newCandidateTree a ⟨2 ^ B⟩) k = some lk →
        ∀ b, b ∈ lj → b ∉ lk) ∧
    (∀ b, b < 2 ^ B → (b ≠ a ↔
      ∃ k, 1 ≤ k ∧ k ≤ B ∧
        ∃ l, FullRange (newCandidateTree a ⟨2 ^ B⟩) k = some l ∧ b ∈ l)) := by
  have hdisj : ∀ j k, 1 ≤ j → 1 ≤ k → j ≤ B → k ≤ B → j < k →
      ∀ lj lk, FullRange (newCandidateTree a ⟨2 ^ B⟩) j = some lj →
        FullRange (newCandidateTree a ⟨2 ^ B⟩) k = some lk →
        ∀ b, b ∈ lj → b ∉ lk := by
    intro j k hj1 hk1 hjB hkB hjk lj lk hlj hlk b hbj hbk
    have hmj := (fullRange_mem_iff B a j b ha hj1 hjB).mp ⟨lj, hlj, hbj⟩
    have hmk := (fullRange_mem_iff B a k b ha hk1 hkB).mp ⟨lk, hlk, hbk⟩
    exact hmk.2 (div_pow_congr (k - 1) (by omega) hmj.1)
  refine ⟨?_, ?_, ?_⟩
  · intro k hk1 hkB
    refine ⟨List.range' (siblingLo a k) (2 ^ (k - 1)),
      fullRange_pow B a k ha hk1 hkB, List.length_range' _ _ _⟩
  · intro j k hj1 hk1 hjB hkB hjk lj lk hlj hlk b hbj hbk
    rcases Nat.lt_or_ge j k with h | h
    · exact hdisj j k hj1 hk1 hjB hkB h lj lk hlj hlk b hbj hbk
    · have hkj : k < j := by omega
      exact hdisj k j hk1 hj1 hkB hjB hkj lk lj hlk hlj b hbk hbj
  · intro b hb
    constructor
    · intro hne
      have hPB : b / 2 ^ B = a / 2 ^ B := by
        rw [Nat.div_eq_of_lt ha, Nat.div_eq_of_lt hb]
      have hex : ∃ i, b / 2 ^ i = a / 2 ^ i := ⟨B, hPB⟩
      have hk := Nat.find_spec hex
      have hkB : Nat.find hex ≤ B := Nat.find_min' hex hPB
      have hk0 : Nat.find hex ≠ 0 := by
        intro h0
        rw [h0, pow_zero, Nat.div_one, Nat.div_one] at hk
        exact hne hk
      have hkm : ¬ (b / 2 ^ (Nat.find hex - 1) = a / 2 ^ (Nat.find hex - 1)) :=
        Nat.find_min hex (by omega)
      refine ⟨Nat.find hex, by omega, hkB, ?_⟩
      exact (fullRange_mem_iff B a (Nat.find hex) b ha (by omega) hkB).mpr ⟨hk, hkm⟩
    · rintro ⟨k, hk1, hkB, hmem⟩
      have hm := (fullRange_mem_iff B a k b ha hk1 hkB).mp hmem
      intro heq
      exact hm.2 (by rw [heq])

/-- Witness: the partition property instantiated at `B = 2`, `a = 1`. -/
theorem fullRange_partition_witness :
    (∀ k, 1 ≤ k → k ≤ 2 →
      ∃ l, FullRange (newCandidateTree 1 ⟨2 ^ 2⟩) k = some l ∧ l.length = 2 ^ (k - 1)) ∧
    (∀ j k, 1 ≤ j → 1 ≤ k → j ≤ 2 → k ≤ 2 → j ≠ k →
      ∀ lj lk, FullRange (newCandidateTree 1 ⟨2 ^ 2⟩) j = some lj →
        FullRange (newCandidateTree 1 ⟨2 ^ 2⟩) k = some lk →
        ∀ b, b ∈ lj → b ∉ lk) ∧
    (∀ b, b < 2 ^ 2 → (b ≠ 1 ↔
      ∃ k, 1 ≤ k ∧ k ≤ 2 ∧
        ∃ l, FullRange (newCandidateTree 1 ⟨2 ^ 2⟩) k = some l ∧ b ∈ l)) :=
  fullRange_partition 2 1 (by decide) (by decide)

/-- C4: for a registry of size 16 and anchor id 1, `FullRange` returns
the ranges `[0,1)`, `[2,4)`, `[4,8)`, `[8,16)` for levels 1..4 and fails
for levels 0 and 5. -/
theorem fullRange_concrete_sixteen :
    FullRange (newCandidateTree 1 ⟨16⟩) 1 = some [0] ∧
    FullRange (newCandidateTree 1 ⟨16⟩) 2 = some [2, 3] ∧
    FullRange (newCandidateTree 1 ⟨16⟩) 3 = some [4, 5, 6, 7] ∧
    FullRange (newCandidateTree 1 ⟨16⟩) 4 = some [8, 9, 10, 11, 12, 13, 14, 15] ∧
    FullRange (newCandidateTree 1 ⟨16⟩) 0 = none ∧
    FullRange (newCandidateTree 1 ⟨16⟩) 5 = none := by
  decide

end Handel

namespace Handel

/-- A concrete aggregator state used to evaluate the code on concrete
inputs: two levels (level 2 not yet started), `LevelTimeout` 100 ms,
threshold 3, registry of size 4. -/
def baseHandel : Handel :=
  { stats := ⟨0, 0⟩
    c := ⟨100, 10⟩
    regSize := 4
    id := 0
    combined := fun _ => ⟨[]⟩
    fullSignature := ⟨[]⟩
    unmarshal := fun _ => none
    incoming := []
    best := none
    out := ⟨false, []⟩
    done := false
    threshold := 3
    tickerStopped := false
    procStopped := false
    levels := [NewLevel 1 [1], NewLevel 2 [2, 3]]
    startTime := 0 }

lemma sendUpdate_levels (h : Handel) (l : Level) (count : Nat) :
    (h.sendUpdate l count).levels = h.levels := by
  rw [Handel.sendUpdate]
  split
  · rfl
  · rfl

lemma foldl_levels {α : Type} (f : Handel → α → Handel)
    (hf : ∀ h x, (f h x).levels = h.levels) :
    ∀ (xs : List α) (h : Handel), (xs.foldl f h).levels = h.levels := by
  intro xs
  induction xs with
  | nil => intro h; rfl
  | cons x xs ih =>
    intro h
    rw [List.foldl_cons, ih, hf]

lemma periodicUpdate_levels (h : Handel) (t : Int) :
    (h.periodicUpdate t).levels = h.levels := by
  exact foldl_levels _ (fun h x => sendUpdate_levels h _ _) _ _

lemma checkCompletedLevel_levels (h : Handel) (s : sigPair) :
    (h.checkCompletedLevel s).levels = h.levels := by
  refine foldl_levels _ ?_ _ _
  intro h i
  dsimp only
  split
  · exact sendUpdate_levels _ _ _
  · rfl

/-- C2: no call sequence built from `periodicUpdate`, `sendUpdate` and
`checkCompletedLevel` ever changes any entry of the aggregator's levels
array — each of them only works on value copies of the entries, so every
entry keeps exactly its construction-time field values. -/
theorem levels_frame (h : Handel) (ops : List AggOp) :
    (ops.foldl AggOp.apply h).levels = h.levels := by
  induction ops generalizing h with
  | nil => rfl
  | cons op ops ih =>
    rw [List.foldl_cons, ih]
    cases op with
    | periodic t => exact periodicUpdate_levels _ _
    | send l count => exact sendUpdate_levels _ _ _
    | check s => exact checkCompletedLevel_levels _ _

/-- C1 (code evaluation): at `t = 100` ms, level 2 of `baseHandel` has
`sendStarted = false` and its timeout `(2 - 1) * 100` ms has elapsed,
yet after `periodicUpdate` the entry of the levels array still has
`sendStarted = false`: the Go loop `for _, lvl := range h.levels` set
the flag on a loop-local copy only. -/
theorem periodicUpdate_timeout_not_persisted :
    ((baseHandel.levels.getD 1 default).sendStarted = false ∧
      (100 : Int) - baseHandel.startTime ≥
        (((baseHandel.levels.getD 1 default).id - 1) * baseHandel.c.LevelTimeoutMs : Nat)) ∧
    ((baseHandel.periodicUpdate 100).levels.getD 1 default).sendStarted = false := by
  refine ⟨⟨by decide, by decide⟩, ?_⟩
  rw [periodicUpdate_levels]
  decide

/-- C3 (code evaluation): the first `Stop` succeeds and closes the
output channel; the second `Stop` reaches `close(h.out)` on the already
closed channel and panics, because `Stop` never checks `done`. -/
theorem stop_twice_panics :
    baseHandel.Stop = Except.ok { baseHandel with
      tickerStopped := true
      procStopped := true
      done := true
      out := { baseHandel.out with closed := true } } ∧
    ({ baseHandel with
      tickerStopped := true
      procStopped := true
      done := true
      out := { baseHandel.out with closed := true } } : Handel).Stop =
      Except.error GoPanic.closeOfClosedChannel :=
  ⟨rfl, rfl⟩

/-- C6: `updateSigToSend` is a no-op returning false when the incoming
cardinality does not exceed `sendSigSize`; otherwise it installs the new
cardinality, resets `sendPeersCt`, leaves the other fields unchanged
except that it sets `sendStarted` and returns true exactly when the new
cardinality equals the number of candidates. -/
theorem updateSigToSend_spec (l : Level) (ms : MultiSignature) :
    (ms.Cardinality ≤ l.sendSigSize → l.updateSigToSend ms = (l, false)) ∧
    (l.sendSigSize < ms.Cardinality →
      ((l.updateSigToSend ms).1.sendSigSize = ms.Cardinality ∧
        (l.updateSigToSend ms).1.sendPeersCt = 0 ∧
        (l.updateSigToSend ms).1.id = l.id ∧
        (l.updateSigToSend ms).1.nodes = l.nodes ∧
        (l.updateSigToSend ms).1.rcvCompleted = l.rcvCompleted ∧
        (l.updateSigToSend ms).1.sendPos = l.sendPos ∧
        ((l.updateSigToSend ms).2 = true ↔ ms.Cardinality = l.nodes.length) ∧
        (l.updateSigToSend ms).1.sendStarted =
          (if ms.Cardinality = l.nodes.length then true else l.sendStarted))) := by
  constructor
  · intro hle
    rw [Level.updateSigToSend, if_pos (by omega)]
  · intro hlt
    rw [Level.updateSigToSend, if_neg (by omega)]
    dsimp only
    by_cases he : ms.Cardinality = l.nodes.length
    · simp [he]
    · simp [he]

/-- Witness for C6: a level with `sendSigSize = 1` and an incoming
signature of cardinality 2 over 2 candidates. -/
theorem updateSigToSend_spec_witness :
    (1 : Nat) < (⟨[true, true]⟩ : MultiSignature).Cardinality ∧
    (Level.updateSigToSend ⟨2, [5, 6], false, false, 0, 3, 1⟩ ⟨[true, true]⟩).1.sendSigSize = 2 ∧
    (Level.updateSigToSend ⟨2, [5, 6], false, false, 0, 3, 1⟩ ⟨[true, true]⟩).2 = true := by
  have h := (updateSigToSend_spec ⟨2, [5, 6], false, false, 0, 3, 1⟩ ⟨[true, true]⟩).2
    (by decide)
  refine ⟨by decide, h.1.trans (by decide), ?_⟩
  exact h.2.2.2.2.2.2.1.mpr (by decide)

lemma pickNextLoop_spec (nodes : List Identity) :
    ∀ (n pos : Nat), 0 < nodes.length → pos < nodes.length →
      pickNextLoop nodes pos n =
        ((List.range n).map (fun i => nodes.getD ((pos + i) % nodes.length) 0),
         (pos + n) % nodes.length) := by
  intro n
  induction n with
  | zero =>
    intro pos h0 hpos
    simp [pickNextLoop, Nat.mod_eq_of_lt hpos]
  | succ n ih =>
    intro pos h0 hpos
    have hpos2 : (if pos + 1 ≥ nodes.length then 0 else pos + 1) = (pos + 1) % nodes.length := by
      split
      · have he : pos + 1 = nodes.length := by omega
        rw [he, Nat.mod_self]
      · rw [Nat.mod_eq_of_lt (by omega)]
    have hlt2 : (pos + 1) % nodes.length < nodes.length := Nat.mod_lt _ h0
    simp only [pickNextLoop]
    rw [hpos2, ih ((pos + 1) % nodes.length) h0 hlt2]
    dsimp only
    rw [Prod.mk.injEq]
    constructor
    · rw [List.range_succ_eq_map, List.map_cons, List.map_map, List.cons.injEq]
      constructor
      · rw [Nat.add_zero, Nat.mod_eq_of_lt hpos]
      · apply List.map_congr_left
        intro i _
        simp only [Function.comp]
        rw [Nat.mod_add_mod]
        have hswap : pos + 1 + i = pos + (i + 1) := by omega
        rw [hswap]
    · rw [Nat.mod_add_mod]
      have hswap : pos + 1 + n = pos + (n + 1) := by omega
      rw [hswap]

/-- C7: `PickNextAt(count)` returns exactly `min(count, |candidates|)`
identities, read consecutively from `sendPos` wrapping modulo the
candidate count; it advances `sendPos` by the returned length (modulo
the candidate count) and increments `sendPeersCt` by that length. -/
theorem pickNextAt_spec (l : Level) (count : Nat) (h0 : 0 < l.nodes.length)
    (hpos : l.sendPos < l.nodes.length) :
    (l.PickNextAt count).1.1 =
      (List.range (min count l.nodes.length)).map
        (fun i => l.nodes.getD ((l.sendPos + i) % l.nodes.length) 0) ∧
    (l.PickNextAt count).1.1.length = min count l.nodes.length ∧
    (l.PickNextAt count).2.sendPeersCt = l.sendPeersCt + min count l.nodes.length ∧
    (l.PickNextAt count).2.sendPos = (l.sendPos + min count l.nodes.length) % l.nodes.length ∧
    (l.PickNextAt count).1.2 = true := by
  rw [Level.PickNextAt]
  dsimp only
  rw [pickNextLoop_spec l.nodes (min count l.nodes.length) l.sendPos h0 hpos]
  simp [List.length_map, List.length_range]

/-- Witness for C7: three candidates, cursor at 1, asking for 2. -/
theorem pickNextAt_spec_witness :
    0 < ([4, 5, 6] : List Identity).length ∧
    ((⟨1, [4, 5, 6], true, true, 1, 0, 0⟩ : Level).PickNextAt 2).1.1 = [5, 6] ∧
    ((⟨1, [4, 5, 6], true, true, 1, 0, 0⟩ : Level).PickNextAt 2).2.sendPos = 0 := by
  have h := pickNextAt_spec ⟨1, [4, 5, 6], true, true, 1, 0, 0⟩ 2 (by decide) (by decide)
  refine ⟨by decide, ?_, ?_⟩
  · rw [h.1]
    decide
  · rw [h.2.2.2.1]
    decide

end Handel

namespace Handel

lemma parsePacket_fst (h : Handel) (p : Packet) :
    (h.parsePacket p).1 =
      { h with stats := { h.stats with msgRcvCt := h.stats.msgRcvCt + 1 } } := by
  rw [Handel.parsePacket]
  dsimp only
  split
  · rfl
  · split <;> rfl

/-- C8: `checkFinalSignature` emits on the output stream only
multi-signatures whose cardinality reaches the configured threshold:
anything found in the output buffer afterwards either was already there
or has cardinality at least `threshold`. -/
theorem checkFinalSignature_threshold (h : Handel) (s : sigPair) (h' : Handel)
    (hok : h.checkFinalSignature s = Except.ok h') (ms : MultiSignature)
    (hm : ms ∈ h'.out.buffer) :
    ms ∈ h.out.buffer ∨ h.threshold ≤ ms.Cardinality := by
  rw [Handel.checkFinalSignature] at hok
  dsimp only at hok
  by_cases hcard : h.fullSignature.Cardinality < h.threshold
  · rw [if_pos hcard] at hok
    rw [Except.ok.injEq] at hok
    subst hok
    exact Or.inl hm
  · rw [if_neg hcard] at hok
    have hnew : ∀ (hh : Handel), hh.out = h.out → hh.threshold = h.threshold →
        (if hh.done then Except.ok hh
          else
            match sendChan { hh with best := some h.fullSignature }.out h.fullSignature with
            | Except.error e => Except.error e
            | Except.ok o => Except.ok { hh with best := some h.fullSignature, out := o }) =
          Except.ok h' →
        ms ∈ h.out.buffer ∨ h.threshold ≤ ms.Cardinality := by
      intro hh hout hthr hok2
      by_cases hdone : hh.done
      · rw [if_pos hdone, Except.ok.injEq] at hok2
        subst hok2
        rw [← hout]
        exact Or.inl hm
      · rw [if_neg hdone] at hok2
        rw [sendChan] at hok2
        by_cases hcl : ({ hh with best := some h.fullSignature } : Handel).out.closed
        · rw [if_pos hcl] at hok2
          exact absurd hok2 (by simp)
        · rw [if_neg hcl] at hok2
          dsimp only at hok2
          rw [Except.ok.injEq] at hok2
          subst hok2
          dsimp only at hm
          rw [hout] at hm
          rcases List.mem_append.mp hm with hmem | hmem
          · exact Or.inl hmem
          · have he : ms = h.fullSignature := List.mem_singleton.mp hmem
            rw [he]
            exact Or.inr (by omega)
    cases hbest : h.best with
    | none =>
      simp only [hbest] at hok
      exact hnew h rfl rfl hok
    | some local0 =>
      simp only [hbest] at hok
      by_cases hgt : h.fullSignature.Cardinality > local0.Cardinality
      · rw [if_pos hgt] at hok
        exact hnew h rfl rfl hok
      · rw [if_neg hgt] at hok
        rw [Except.ok.injEq] at hok
        subst hok
        exact Or.inl hm

/-- Witness for C8: a state whose full signature is below the threshold,
so `checkFinalSignature` returns the state unchanged and the buffered
signature was already present. -/
theorem checkFinalSignature_threshold_witness :
    (⟨[true]⟩ : MultiSignature) ∈
        ({ baseHandel with out := ⟨false, [⟨[true]⟩]⟩ } : Handel).out.buffer ∨
      ({ baseHandel with out := ⟨false, [⟨[true]⟩]⟩ } : Handel).threshold ≤
        (⟨[true]⟩ : MultiSignature).Cardinality :=
  checkFinalSignature_threshold { baseHandel with out := ⟨false, [⟨[true]⟩]⟩ }
    ⟨0, 1, ⟨[]⟩⟩ { baseHandel with out := ⟨false, [⟨[true]⟩]⟩ } rfl ⟨[true]⟩
    (by simp [baseHandel])

/-- C9: a malformed packet (origin out of range, level out of range, or
unmarshal failure) received while the aggregator is not done is dropped
with no effect on the state other than the `msgRcvCt` increment; nothing
is enqueued to the pipeline. -/
theorem newPacket_malformed (h : Handel) (p : Packet) (hdone : h.done = false)
    (hbad : p.Origin ≥ (h.regSize : Int) ∨ p.Level < 1 ∨ p.Level > log2 h.regSize ∨
      h.unmarshal p.MultiSig = none) :
    h.NewPacket p =
      { h with stats := { h.stats with msgRcvCt := h.stats.msgRcvCt + 1 } } := by
  have hparse : (h.parsePacket p).2 = none := by
    rw [Handel.parsePacket]
    dsimp only
    by_cases h1 : p.Origin ≥ (h.regSize : Int)
    · rw [if_pos h1]
    · rw [if_neg h1]
      by_cases h2 : p.Level < 1 ∨ p.Level > log2 h.regSize
      · rw [if_pos h2]
      · rw [if_neg h2]
        rcases hbad with hb | hb | hb | hb
        · exact absurd hb h1
        · exact absurd (Or.inl hb) h2
        · exact absurd (Or.inr hb) h2
        · exact hb
  rw [Handel.NewPacket, if_neg (by rw [hdone]; exact Bool.false_ne_true)]
  dsimp only
  rw [hparse, parsePacket_fst]

/-- Witness for C9: origin 99 is out of range for a registry of size 4;
only `msgRcvCt` changes. -/
theorem newPacket_malformed_witness :
    baseHandel.done = false ∧
    baseHandel.NewPacket ⟨99, 1, []⟩ =
      { baseHandel with
          stats := { baseHandel.stats with msgRcvCt := baseHandel.stats.msgRcvCt + 1 } } :=
  ⟨rfl, newPacket_malformed baseHandel ⟨99, 1, []⟩ rfl (Or.inl (by decide))⟩

/-- C10: once `done` is set, `NewPacket` returns immediately: the state
is completely unchanged — in particular `msgRcvCt` is not incremented
and nothing is enqueued — whatever the packet contains. -/
theorem newPacket_done_noop (h : Handel) (p : Packet) (hdone : h.done = true) :
    h.NewPacket p = h := by
  rw [Handel.NewPacket, if_pos hdone]

/-- Witness for C10: a stopped aggregator ignores a (well-formed or
not) packet entirely. -/
theorem newPacket_done_noop_witness :
    ({ baseHandel with done := true } : Handel).NewPacket ⟨0, 1, []⟩ =
      { baseHandel with done := true } :=
  newPacket_done_noop { baseHandel with done := true } ⟨0, 1, []⟩ rfl

end Handel
